import Mathlib

/-! PIC32 RF sweeper: the sweep arithmetic of `main.c`

`main.c` drives the PIC32 reference clock output (REFCO) through a frequency
sweep from `F0` to `F1` kHz in `F_STEP` steps, and a PWM duty cycle in step
with it.  This file embeds the arithmetic and the control flow of `main` and
proves properties of them.

Conventions of the embedding:

* The arithmetic of `main.c` is given twice.  `Khz2NM512f`, `freq`, `nm512`
  and `loopBody` read the C expressions in exact rational arithmetic;
  `Khz2NM512f64`, `freq64`, `nm512_64` and `loopBody64` evaluate them as the
  compiled code does, every `double` operation rounded to binary64.  The
  properties of the converter and of the sweep endpoints that depend on the
  rounding are stated on the binary64 evaluation.
* The implicit conversion `double -> uint32_t` of `nm512 = ...` truncates
  towards zero and is undefined when the truncated value does not fit in 32
  bits; the embedding returns `none` there.
* `F_CPU` comes from a header that is not part of `main.c`, so the functions
  take it as a parameter; `F0`, `F1` and `F_STEP` are compile-time macros and
  are parameters too, with the values of `main.c` collected in `audioBand`.
* The peripheral calls are recorded as a trace of `Action`s.
-/

namespace RFSweeper

/-! ## Configuration -/

/-- Clock source selector handed to `refco_init`. -/
inductive RefcoSource
  | REFCO_SYSCLK
  deriving DecidableEq, Repr

/-- Timer prescaler handed to `pwm2_init`. -/
inductive TimerPrescaler
  | TMRPS_8x
  deriving DecidableEq, Repr

/-- Compile-time configuration of the sweep: the macros `F_CPU`, `F0`, `F1`
and `F_STEP`. -/
structure SweepConfig where
  /-- System clock in Hz. -/
  F_CPU : ℕ
  /-- Start of the band, in kHz. -/
  F0 : ℚ
  /-- End of the band, in kHz. -/
  F1 : ℚ
  /-- Number of steps between `F0` and `F1`. -/
  F_STEP : ℕ
  deriving Repr

/-- Modelled from the spec: the macro `F_CPU` is defined in a header outside
`main.c`; the spec gives the reference clock rate as 48 000 000 Hz (the source
comment says the chip runs at 48 MHz). -/
def F_CPU : ℕ := 48000000

/-- `#define F0 (1)`: start frequency of the audio band, in kHz. -/
def F0 : ℚ := 1

/-- `#define F1 (20)`: end frequency of the audio band, in kHz. -/
def F1 : ℚ := 20

/-- `#define F_STEP 100`: number of steps between `F0` and `F1`. -/
def F_STEP : ℕ := 100

/-- `#define LED (1<<7)`. -/
def LED : ℕ := 1 <<< 7

/-- `#define LED_DLY 100ul`. -/
def LED_DLY : ℕ := 100

/-- The configuration compiled into `main.c`: audio band, 1 to 20 kHz. -/
def audioBand : SweepConfig :=
  { F_CPU := F_CPU, F0 := F0, F1 := F1, F_STEP := F_STEP }

/-! ## Frequency and divider arithmetic -/

/-- `#define Khz2NM512f(khz) ((double)(F_CPU) / 1000 * 256 / (khz) + 0.5)`.
The value at `khz = 0` is not meaningful (the C expression is not finite
there); `nm512` guards that case. -/
def Khz2NM512f (fcpu : ℕ) (khz : ℚ) : ℚ :=
  (fcpu : ℚ) / 1000 * 256 / khz + 1 / 2

/-- `#define Khz2NM512(khz) ((F_CPU) / 1000 * 256 / (khz))`, the integer
variant of the conversion (not used by `main`). -/
def Khz2NM512 (fcpu khz : ℕ) : ℕ :=
  fcpu / 1000 * 256 / khz

/-- Truncation towards zero, the integral part kept by a C conversion from
`double` to an integer type. -/
def cTrunc (q : ℚ) : ℤ :=
  if 0 ≤ q then ⌊q⌋ else ⌈q⌉

/-- Conversion `double -> uint32_t`: the integral part when it is
representable in 32 bits, undefined otherwise. -/
def toUint32 (q : ℚ) : Option ℕ :=
  if 0 ≤ cTrunc q ∧ cTrunc q < 2 ^ 32 then some (cTrunc q).toNat else none

/-- `freq = F0 + (F1 - F0) * (double) i / F_STEP;` -/
def freq (cfg : SweepConfig) (i : ℕ) : ℚ :=
  cfg.F0 + (cfg.F1 - cfg.F0) * (i : ℚ) / (cfg.F_STEP : ℚ)

/-- `nm512 = Khz2NM512f(khz);` with `uint32_t nm512`. -/
def nm512 (fcpu : ℕ) (khz : ℚ) : Option ℕ :=
  if khz = 0 then none else toUint32 (Khz2NM512f fcpu khz)

/-- Frequency encoded by a divider: the conversion `khz -> F_CPU/1000*256/khz`
read backwards. -/
def NM5122Khz (fcpu : ℕ) (d : ℤ) : ℚ :=
  (fcpu : ℚ) / 1000 * 256 / (d : ℚ)

/-- Round to nearest, ties to even: a rounding rule against which the
converter is compared. -/
def roundHalfEven (q : ℚ) : ℤ :=
  if Int.fract q < 1 / 2 then ⌊q⌋
  else if 1 / 2 < Int.fract q then ⌊q⌋ + 1
  else if ⌊q⌋ % 2 = 0 then ⌊q⌋ else ⌊q⌋ + 1

/-- Largest divider of the REFCO encoding: 15 integer bits and 9 fractional
bits (`uint32_t nm512; //n=15bit, m=9bit`). -/
def NM512_MAX : ℕ := 2 ^ 24 - 1

/-! ## Control flow of `main` -/

/-- Calls made by `main` to the peripherals, in the order of execution. -/
inductive Action
  | mcu_init
  | refco_init (src : RefcoSource)
  | refco_setnm (nm : ℕ)
  | refco_en
  | pwm2_init (ps : TimerPrescaler) (period : ℕ)
  | IO_OUT (pins : ℕ)
  | ei
  | pwm2_setdc (dc : ℕ)
  | IO_FLP (pins : ℕ)
  | delay_ms (ms : ℕ)
  deriving DecidableEq, Repr

/-- The statements of `main` before `while (1)`. -/
def startup (cfg : SweepConfig) : Option (List Action) :=
  (nm512 cfg.F_CPU cfg.F0).map fun nm =>
    [Action.mcu_init, Action.refco_init RefcoSource.REFCO_SYSCLK,
     Action.refco_setnm nm, Action.refco_en,
     Action.pwm2_init TimerPrescaler.TMRPS_8x cfg.F_STEP,
     Action.IO_OUT LED, Action.ei]

/-- The body of the `for` loop at step index `i`. -/
def loopBody (cfg : SweepConfig) (i : ℕ) : Option (List Action) :=
  (nm512 cfg.F_CPU (freq cfg i)).map fun nm =>
    [Action.refco_setnm nm, Action.pwm2_setdc i, Action.IO_FLP LED,
     Action.delay_ms LED_DLY]

/-- The index of the iteration after the one at index `i`: `i++`, then the
test `i < F_STEP`; when it fails the `for` loop ends and `while (1)` starts
it again at `i = 0`. -/
def nextIndex (fstep i : ℕ) : ℕ :=
  if i + 1 < fstep then i + 1 else 0

/-- The step index of the `k`-th executed iteration of the loop body, counted
from the start of `while (1)`. -/
def indexAt (fstep k : ℕ) : ℕ :=
  (nextIndex fstep)^[k] 0

/-- The trace of `n` iterations of the loop body starting at index `i`.  An
index that fails `i < F_STEP` runs nothing (only possible with `F_STEP = 0`,
where `while (1)` spins without calling a peripheral). -/
def sweepLoop (cfg : SweepConfig) : ℕ → ℕ → Option (List Action)
  | 0, _ => some []
  | n + 1, i =>
    if i < cfg.F_STEP then
      (loopBody cfg i).bind fun t =>
        (sweepLoop cfg n (nextIndex cfg.F_STEP i)).map fun rest => t ++ rest
    else some []

/-- The trace of `main` up to and including `n` iterations of the loop
body. -/
def main (cfg : SweepConfig) (n : ℕ) : Option (List Action) :=
  (startup cfg).bind fun t => (sweepLoop cfg n 0).map fun rest => t ++ rest

/-- The value passed to `refco_setnm` in a trace, first occurrence. -/
def dividerOf : List Action → Option ℕ
  | [] => none
  | Action.refco_setnm nm :: _ => some nm
  | _ :: rest => dividerOf rest

/-- The value passed to `pwm2_setdc` in a trace, first occurrence. -/
def rampOf : List Action → Option ℕ
  | [] => none
  | Action.pwm2_setdc dc :: _ => some dc
  | _ :: rest => rampOf rest

/-- Recognises a divider update. -/
def isSetnm : Action → Bool
  | Action.refco_setnm _ => true
  | _ => false

/-- Recognises a ramp-step update. -/
def isSetdc : Action → Bool
  | Action.pwm2_setdc _ => true
  | _ => false

/-- Recognises a pacing delay. -/
def isDelay : Action → Bool
  | Action.delay_ms _ => true
  | _ => false

/-- A band starting at 0.5 kHz, otherwise as compiled into `main.c`
(`#define F0 (0.5)`). -/
def halfKhzBand : SweepConfig :=
  { F_CPU := F_CPU, F0 := 1 / 2, F1 := F1, F_STEP := F_STEP }

/-- A band with equal endpoints at 1 kHz, otherwise as compiled into
`main.c` (`#define F1 (1)`). -/
def fixedBand : SweepConfig :=
  { F_CPU := F_CPU, F0 := F0, F1 := F0, F_STEP := F_STEP }

/-! ## Binary64 evaluation

The C code computes in `double`.  The definitions below evaluate the same
expressions with every operation rounded to binary64 (round to nearest, ties
to even, 53-bit significand, gradual underflow).  Values of magnitude `2^1024`
and above, where binary64 overflows to infinity, are kept as rationals: they
are far above `2^32`, so the conversion to `uint32_t` is undefined for them
either way, and the statements about `freq64` bound the endpoints so that no
operation reaches that range.  A division by `F_STEP = 0` does not arise: the
loop body only runs at indices `i < F_STEP`. -/

/-- Exponent of the spacing of the binary64 values around `q`: 53 significant
bits, spacing never below `2^-1074` (subnormal range). -/
def ulpExp (q : ℚ) : ℤ :=
  max (Int.log 2 |q| - 52) (-1074)

/-- The binary64 value nearest to `q`, ties to even. -/
def rnd (q : ℚ) : ℚ :=
  (roundHalfEven (q / 2 ^ ulpExp q) : ℚ) * 2 ^ ulpExp q

/-- A value left unchanged by rounding is a binary64 value. -/
def isBinary64 (a : ℚ) : Prop := rnd a = a

/-- `Khz2NM512f` evaluated in binary64: every operation of
`(double)(F_CPU) / 1000 * 256 / (khz) + 0.5` is rounded. -/
def Khz2NM512f64 (fcpu : ℕ) (khz : ℚ) : ℚ :=
  rnd (rnd (rnd (rnd (rnd (fcpu : ℚ) / 1000) * 256) / khz) + 1 / 2)

/-- `nm512 = Khz2NM512f(khz);` with the macro evaluated in binary64. -/
def nm512_64 (fcpu : ℕ) (khz : ℚ) : Option ℕ :=
  if khz = 0 then none else toUint32 (Khz2NM512f64 fcpu khz)

/-- `freq = F0 + (F1 - F0) * (double) i / F_STEP;` evaluated in binary64: the
constants `F0` and `F1` are converted to `double`, and the difference, the
product, the quotient and the sum are each rounded. -/
def freq64 (cfg : SweepConfig) (i : ℕ) : ℚ :=
  rnd (rnd cfg.F0 +
    rnd (rnd (rnd (rnd cfg.F1 - rnd cfg.F0) * (i : ℚ)) / (cfg.F_STEP : ℚ)))

/-- The body of the `for` loop at step index `i`, computed in binary64. -/
def loopBody64 (cfg : SweepConfig) (i : ℕ) : Option (List Action) :=
  (nm512_64 cfg.F_CPU (freq64 cfg i)).map fun nm =>
    [Action.refco_setnm nm, Action.pwm2_setdc i, Action.IO_FLP LED,
     Action.delay_ms LED_DLY]

/-- The trace of `n` iterations of the loop body starting at index `i`,
computed in binary64. -/
def sweepLoop64 (cfg : SweepConfig) : ℕ → ℕ → Option (List Action)
  | 0, _ => some []
  | n + 1, i =>
    if i < cfg.F_STEP then
      (loopBody64 cfg i).bind fun t =>
        (sweepLoop64 cfg n (nextIndex cfg.F_STEP i)).map fun rest => t ++ rest
    else some []

/-- The binary64 value `0x1.6db6db6db6db7p+15` (about 46811.43 kHz), just
above `12288000 / 262.5`. -/
def tieFreq : ℚ := 6433713753386423 / 2 ^ 37

theorem cTrunc_of_nonneg {q : ℚ} (h : 0 ≤ q) : cTrunc q = ⌊q⌋ := by
  simp [cTrunc, h]

theorem Khz2NM512f_pos (fcpu : ℕ) {khz : ℚ} (h : 0 < khz) :
    0 < Khz2NM512f fcpu khz := by
  unfold Khz2NM512f
  have : 0 ≤ (fcpu : ℚ) / 1000 * 256 / khz := by positivity
  linarith

theorem cTrunc_Khz2NM512f (fcpu : ℕ) {khz : ℚ} (h : 0 < khz) :
    cTrunc (Khz2NM512f fcpu khz) = ⌊(fcpu : ℚ) / 1000 * 256 / khz + 1 / 2⌋ := by
  rw [cTrunc_of_nonneg (Khz2NM512f_pos fcpu h).le]
  rfl

theorem cTrunc_Khz2NM512f_nonneg (fcpu : ℕ) {khz : ℚ} (h : 0 < khz) :
    0 ≤ cTrunc (Khz2NM512f fcpu khz) := by
  rw [cTrunc_of_nonneg (Khz2NM512f_pos fcpu h).le]
  exact Int.floor_nonneg.mpr (Khz2NM512f_pos fcpu h).le

/-- When the rounded quotient fits in 32 bits the assignment to `nm512` stores
it. -/
theorem nm512_eq_some (fcpu : ℕ) {khz : ℚ} (h : 0 < khz)
    (hlt : cTrunc (Khz2NM512f fcpu khz) < 2 ^ 32) :
    nm512 fcpu khz = some (cTrunc (Khz2NM512f fcpu khz)).toNat := by
  unfold nm512 toUint32
  rw [if_neg h.ne', if_pos ⟨cTrunc_Khz2NM512f_nonneg fcpu h, hlt⟩]

/-- A stored `nm512` is the truncated value of the macro. -/
theorem nm512_some_iff (fcpu : ℕ) {khz : ℚ} (h : 0 < khz) (n : ℕ) :
    nm512 fcpu khz = some n ↔
      cTrunc (Khz2NM512f fcpu khz) = (n : ℤ) ∧ n < 2 ^ 32 := by
  have h0 := cTrunc_Khz2NM512f_nonneg fcpu h
  unfold nm512 toUint32
  rw [if_neg h.ne']
  constructor
  · intro hn
    split_ifs at hn with hc
    · have hn' : (cTrunc (Khz2NM512f fcpu khz)).toNat = n := by simpa using hn
      have : ((cTrunc (Khz2NM512f fcpu khz)).toNat : ℤ) = cTrunc (Khz2NM512f fcpu khz) :=
        Int.toNat_of_nonneg h0
      constructor
      · rw [← hn']; exact this.symm
      · have h2 := hc.2
        rw [← this, hn'] at h2
        exact_mod_cast h2
  · rintro ⟨he, hlt⟩
    have hc : 0 ≤ cTrunc (Khz2NM512f fcpu khz) ∧ cTrunc (Khz2NM512f fcpu khz) < 2 ^ 32 := by
      refine ⟨h0, ?_⟩
      rw [he]; exact_mod_cast hlt
    rw [if_pos hc, he]
    simp

/-- The rounded quotient is at least 256 for a target not above the
reference clock. -/
theorem divider_ge_256 (fcpu : ℕ) {f : ℚ} (h0 : 0 < f)
    (h1 : f ≤ (fcpu : ℚ) / 1000) :
    (256 : ℤ) ≤ ⌊(fcpu : ℚ) / 1000 * 256 / f + 1 / 2⌋ := by
  rw [Int.le_floor]
  have : (256 : ℚ) ≤ (fcpu : ℚ) / 1000 * 256 / f := by
    rw [le_div_iff₀ h0]
    nlinarith
  push_cast
  linarith

/-- The rounded quotient differs from the exact quotient by at most one
half. -/
theorem floor_add_half_dist (x : ℚ) : |(⌊x + 1 / 2⌋ : ℚ) - x| ≤ 1 / 2 := by
  have hle : (⌊x + 1 / 2⌋ : ℚ) ≤ x + 1 / 2 := Int.floor_le _
  have hlt : x + 1 / 2 < (⌊x + 1 / 2⌋ : ℚ) + 1 := Int.lt_floor_add_one _
  rw [abs_le]
  constructor <;> linarith

/-- Adding one half before the floor moves to the next integer exactly when
the fractional part is at least one half. -/
theorem floor_add_half_of_fract_ge {x : ℚ} (h : 1 / 2 ≤ Int.fract x) :
    ⌊x + 1 / 2⌋ = ⌊x⌋ + 1 := by
  rw [Int.floor_eq_iff]
  have h1 : Int.fract x < 1 := Int.fract_lt_one x
  have h2 : x = ⌊x⌋ + Int.fract x := (Int.floor_add_fract x).symm
  push_cast
  constructor <;> linarith

theorem floor_add_half_of_fract_lt {x : ℚ} (h : Int.fract x < 1 / 2) :
    ⌊x + 1 / 2⌋ = ⌊x⌋ := by
  rw [Int.floor_eq_iff]
  have h1 : 0 ≤ Int.fract x := Int.fract_nonneg x
  have h2 : x = ⌊x⌋ + Int.fract x := (Int.floor_add_fract x).symm
  constructor <;> linarith

/-! ## Binary64 rounding -/

theorem roundHalfEven_floor_le (t : ℚ) : ⌊t⌋ ≤ roundHalfEven t := by
  unfold roundHalfEven
  split_ifs <;> omega

theorem roundHalfEven_le_floor_succ (t : ℚ) : roundHalfEven t ≤ ⌊t⌋ + 1 := by
  unfold roundHalfEven
  split_ifs <;> omega

theorem le_roundHalfEven {t : ℚ} {k : ℤ} (h : (k : ℚ) ≤ t) : k ≤ roundHalfEven t :=
  (Int.le_floor.mpr h).trans (roundHalfEven_floor_le t)

theorem roundHalfEven_le {t : ℚ} {k : ℤ} (h : t ≤ (k : ℚ)) : roundHalfEven t ≤ k := by
  by_cases hz : Int.fract t = 0
  · have h1 : roundHalfEven t = ⌊t⌋ := by
      unfold roundHalfEven
      rw [if_pos (by rw [hz]; norm_num)]
    rw [h1]
    have : (⌊t⌋ : ℚ) ≤ k := (Int.floor_le t).trans h
    exact_mod_cast this
  · have hpos : 0 < Int.fract t := lt_of_le_of_ne (Int.fract_nonneg t) (Ne.symm hz)
    have h2 : (⌊t⌋ : ℚ) < k := by
      have : t = ⌊t⌋ + Int.fract t := (Int.floor_add_fract t).symm
      linarith
    have h3 : ⌊t⌋ < k := by exact_mod_cast h2
    have := roundHalfEven_le_floor_succ t
    omega

theorem roundHalfEven_dist (t : ℚ) : |(roundHalfEven t : ℚ) - t| ≤ 1 / 2 := by
  have h0 : 0 ≤ Int.fract t := Int.fract_nonneg t
  have h1 : Int.fract t < 1 := Int.fract_lt_one t
  have h2 : t = ⌊t⌋ + Int.fract t := (Int.floor_add_fract t).symm
  rw [abs_le]
  unfold roundHalfEven
  split_ifs with ha hb hc
  · constructor <;> linarith
  · push_cast; constructor <;> linarith
  · have : Int.fract t = 1 / 2 := le_antisymm (not_lt.mp hb) (not_lt.mp ha)
    constructor <;> linarith
  · have : Int.fract t = 1 / 2 := le_antisymm (not_lt.mp hb) (not_lt.mp ha)
    push_cast; constructor <;> linarith

theorem roundHalfEven_eq_of_lt {t : ℚ} {k : ℤ} (h : |t - k| < 1 / 2) :
    roundHalfEven t = k := by
  rw [abs_lt] at h
  have hd := roundHalfEven_dist t
  rw [abs_le] at hd
  have h1 : ((roundHalfEven t : ℤ) : ℚ) < (k : ℚ) + 1 := by linarith
  have h2 : (k : ℚ) - 1 < ((roundHalfEven t : ℤ) : ℚ) := by linarith
  have h1' : roundHalfEven t < k + 1 := by exact_mod_cast h1
  have h2' : k - 1 < roundHalfEven t := by exact_mod_cast h2
  omega

theorem two_zpow_pos (e : ℤ) : (0 : ℚ) < 2 ^ e := zpow_pos (by norm_num) e

theorem ulpExp_ge (q : ℚ) : -1074 ≤ ulpExp q := le_max_right _ _

/-- The magnitude of `q` is below `2^53` spacings. -/
theorem abs_lt_ulp (q : ℚ) : |q| < 2 ^ (ulpExp q + 53) := by
  have h1 : |q| < ((2 : ℕ) : ℚ) ^ (Int.log 2 |q| + 1) :=
    Int.lt_zpow_succ_log_self (by norm_num) _
  have h2 : Int.log 2 |q| + 1 ≤ ulpExp q + 53 := by
    have : Int.log 2 |q| - 52 ≤ ulpExp q := le_max_left _ _
    omega
  have h3 : ((2 : ℕ) : ℚ) ^ (Int.log 2 |q| + 1) ≤ (2 : ℚ) ^ (ulpExp q + 53) := by
    rw [Nat.cast_ofNat]
    exact zpow_le_zpow_right₀ (by norm_num) h2
  exact lt_of_lt_of_le h1 h3

/-- Above the subnormal range the magnitude of `q` is at least `2^52`
spacings. -/
theorem ulp_le_abs {q : ℚ} (hq0 : q ≠ 0) (h : -1074 < ulpExp q) :
    (2 : ℚ) ^ (ulpExp q + 52) ≤ |q| := by
  have he : ulpExp q = Int.log 2 |q| - 52 := by
    unfold ulpExp at h ⊢
    rcases max_cases (Int.log 2 |q| - 52) (-1074) with ⟨h1, _⟩ | ⟨h1, _⟩
    · exact h1
    · rw [h1] at h; exact absurd h (lt_irrefl _)
  have hq : 0 < |q| := abs_pos.mpr hq0
  have := Int.zpow_log_le_self (b := 2) (by norm_num) hq
  rw [Nat.cast_ofNat] at this
  rw [he]
  have e2 : Int.log 2 |q| - 52 + 52 = Int.log 2 |q| := by ring
  rw [e2]
  exact this

theorem ulpExp_eq {q : ℚ} {E : ℤ} (hE : -1022 ≤ E) (h1 : (2 : ℚ) ^ E ≤ |q|)
    (h2 : |q| < 2 ^ (E + 1)) : ulpExp q = E - 52 := by
  have hq : 0 < |q| := lt_of_lt_of_le (two_zpow_pos E) h1
  have hl : Int.log 2 |q| = E := by
    apply le_antisymm
    · have : Int.log 2 |q| < E + 1 := by
        rw [← Int.lt_zpow_iff_log_lt (by norm_num) hq, Nat.cast_ofNat]
        exact h2
      omega
    · rw [← Int.zpow_le_iff_le_log (by norm_num) hq, Nat.cast_ofNat]
      exact h1
  unfold ulpExp
  rw [hl]
  exact max_eq_left (by omega)

theorem rnd_zero : rnd 0 = 0 := by
  simp [rnd, roundHalfEven]

theorem two_zpow_add (a b : ℤ) : (2 : ℚ) ^ (a + b) = 2 ^ a * 2 ^ b :=
  zpow_add₀ (by norm_num) a b

theorem rnd_eq (q : ℚ) :
    rnd q = (roundHalfEven (q / 2 ^ ulpExp q) : ℚ) * 2 ^ ulpExp q := rfl

/-- Rounding does not cross a multiple of the spacing around `q`. -/
theorem rnd_grid {a q : ℚ} {k : ℤ} (ha : a = (k : ℚ) * 2 ^ ulpExp q) :
    (a ≤ q → a ≤ rnd q) ∧ (q ≤ a → rnd q ≤ a) := by
  have hp := two_zpow_pos (ulpExp q)
  constructor
  · intro h
    have h1 : (k : ℚ) ≤ q / 2 ^ ulpExp q := by
      rw [le_div_iff₀ hp, ← ha]; exact h
    have h2 : (k : ℚ) ≤ (roundHalfEven (q / 2 ^ ulpExp q) : ℚ) := by
      exact_mod_cast le_roundHalfEven h1
    rw [rnd_eq, ha]
    exact mul_le_mul_of_nonneg_right h2 hp.le
  · intro h
    have h1 : q / 2 ^ ulpExp q ≤ (k : ℚ) := by
      rw [div_le_iff₀ hp, ← ha]; exact h
    have h2 : (roundHalfEven (q / 2 ^ ulpExp q) : ℚ) ≤ (k : ℚ) := by
      exact_mod_cast roundHalfEven_le h1
    rw [rnd_eq, ha]
    exact mul_le_mul_of_nonneg_right h2 hp.le

/-- Rounding does not cross a binary64 value `m * 2^e`. -/
theorem rnd_sandwich {a q : ℚ} {m e : ℤ} (he : -1074 ≤ e) (hm : |m| ≤ 2 ^ 53)
    (ha : a = (m : ℚ) * 2 ^ e) :
    (a ≤ q → a ≤ rnd q) ∧ (q ≤ a → rnd q ≤ a) := by
  by_cases hcase : ulpExp q ≤ e
  · -- `a` is a multiple of the spacing around `q`
    obtain ⟨j, hj⟩ := Int.eq_ofNat_of_zero_le (sub_nonneg.mpr hcase)
    have he' : e = ulpExp q + (j : ℤ) := by omega
    have : a = ((m * 2 ^ j : ℤ) : ℚ) * 2 ^ ulpExp q := by
      rw [ha, he', two_zpow_add, zpow_natCast]
      push_cast
      ring
    exact rnd_grid this
  · have hlt : e < ulpExp q := not_le.mp hcase
    by_cases hq0 : q = 0
    · subst hq0
      rw [rnd_zero]
      exact ⟨id, id⟩
    have hmQ : |(m : ℚ)| ≤ 2 ^ 53 := by
      have : ((|m| : ℤ) : ℚ) ≤ ((2 ^ 53 : ℤ) : ℚ) := by exact_mod_cast hm
      simpa using this
    have hpe := two_zpow_pos e
    set g : ℚ := 2 ^ (ulpExp q + 52) with hg
    have hgpos : 0 < g := two_zpow_pos _
    -- |a| ≤ 2^(e+53) ≤ g ≤ |q|
    have habs : |a| ≤ g := by
      rw [ha, abs_mul, abs_of_pos hpe]
      have h1 : |(m : ℚ)| * 2 ^ e ≤ 2 ^ 53 * 2 ^ e :=
        mul_le_mul_of_nonneg_right hmQ hpe.le
      have h2 : (2 : ℚ) ^ 53 * 2 ^ e = 2 ^ (e + 53) := by
        rw [two_zpow_add]; norm_num [mul_comm]
      have h3 : (2 : ℚ) ^ (e + 53) ≤ 2 ^ (ulpExp q + 52) :=
        zpow_le_zpow_right₀ (by norm_num) (by omega)
      linarith
    have hgq : g ≤ |q| := ulp_le_abs hq0 (by omega)
    have hgrid : g = ((2 ^ 52 : ℤ) : ℚ) * 2 ^ ulpExp q := by
      rw [hg, two_zpow_add]; push_cast; norm_num [mul_comm]
    have hgrid' : -g = ((-(2 ^ 52) : ℤ) : ℚ) * 2 ^ ulpExp q := by
      rw [hgrid]; push_cast; ring
    have ha1 : a ≤ g := (le_abs_self a).trans habs
    have ha2 : -g ≤ a := by
      have := (neg_abs_le a); linarith
    rcases lt_or_gt_of_ne hq0 with hneg | hpos
    · -- q < 0: q ≤ -g ≤ a
      have hq : q ≤ -g := by rw [abs_of_neg hneg] at hgq; linarith
      constructor
      · intro h
        have : a = -g := le_antisymm (h.trans hq) ha2
        rw [this]
        refine (rnd_grid hgrid').1 ?_
        rw [← this]; exact h
      · intro _
        exact ((rnd_grid hgrid').2 hq).trans ha2
    · -- 0 < q: a ≤ g ≤ q
      have hq : g ≤ q := by rw [abs_of_pos hpos] at hgq; exact hgq
      constructor
      · intro _
        exact ha1.trans ((rnd_grid hgrid).1 hq)
      · intro h
        have : a = g := le_antisymm ha1 (hq.trans h)
        rw [this]
        refine (rnd_grid hgrid).2 ?_
        rw [← this]; exact h

/-- The rounded value is a multiple of the spacing with at most 53 bits. -/
theorem rnd_rep (q : ℚ) :
    |roundHalfEven (q / 2 ^ ulpExp q)| ≤ 2 ^ 53 := by
  have hp := two_zpow_pos (ulpExp q)
  have h := abs_lt_ulp q
  rw [two_zpow_add] at h
  have ht : |q / 2 ^ ulpExp q| < 2 ^ 53 := by
    rw [abs_div, abs_of_pos hp, div_lt_iff₀ hp]
    have e : (2 : ℚ) ^ (53 : ℤ) = 2 ^ 53 := by norm_num
    rw [e] at h
    linarith
  rw [abs_lt] at ht
  rw [abs_le]
  constructor
  · apply le_roundHalfEven; push_cast; linarith [ht.1]
  · apply roundHalfEven_le; push_cast; linarith [ht.2]

theorem rnd_rnd (q : ℚ) : rnd (rnd q) = rnd q := by
  have h := rnd_sandwich (q := rnd q) (ulpExp_ge q) (rnd_rep q) (rnd_eq q)
  exact le_antisymm (h.2 le_rfl) (h.1 le_rfl)

/-- Rounding is monotone against binary64 values: from below. -/
theorem le_rnd {a q : ℚ} (ha : isBinary64 a) (h : a ≤ q) : a ≤ rnd q := by
  have := rnd_sandwich (q := q) (ulpExp_ge a) (rnd_rep a) (ha.symm.trans (rnd_eq a))
  exact this.1 h

/-- Rounding is monotone against binary64 values: from above. -/
theorem rnd_le {a q : ℚ} (ha : isBinary64 a) (h : q ≤ a) : rnd q ≤ a := by
  have := rnd_sandwich (q := q) (ulpExp_ge a) (rnd_rep a) (ha.symm.trans (rnd_eq a))
  exact this.2 h

/-- Dyadic rationals `h / 2^j` with at most 53 bits are binary64 values. -/
theorem isBinary64_dyadic (h : ℤ) (j : ℕ) (hh : |h| ≤ 2 ^ 53) (hj : j ≤ 1074) :
    isBinary64 ((h : ℚ) / 2 ^ j) := by
  have ha : (h : ℚ) / 2 ^ j = (h : ℚ) * 2 ^ (-(j : ℤ)) := by
    rw [zpow_neg, zpow_natCast, div_eq_mul_inv]
  have := rnd_sandwich (q := (h : ℚ) / 2 ^ j) (e := -(j : ℤ)) (by omega) hh ha
  exact le_antisymm (this.2 le_rfl) (this.1 le_rfl)

theorem isBinary64_int (h : ℤ) (hh : |h| ≤ 2 ^ 53) : isBinary64 (h : ℚ) := by
  have := isBinary64_dyadic h 0 hh (by omega)
  simpa using this

theorem rnd_int (h : ℤ) (hh : |h| ≤ 2 ^ 53) : rnd (h : ℚ) = h := isBinary64_int h hh

theorem Khz2NM512f64_F_CPU (f : ℚ) :
    Khz2NM512f64 F_CPU f = rnd (rnd (12288000 / f) + 1 / 2) := by
  have h1 : rnd ((F_CPU : ℕ) : ℚ) = 48000000 := by
    have := rnd_int 48000000 (by norm_num)
    simpa [F_CPU] using this
  have h2 : rnd ((48000000 : ℚ) / 1000) = 48000 := by
    have := rnd_int 48000 (by norm_num)
    have e : (48000000 : ℚ) / 1000 = ((48000 : ℤ) : ℚ) := by norm_num
    rw [e]; simpa using this
  have h3 : rnd ((48000 : ℚ) * 256) = 12288000 := by
    have := rnd_int 12288000 (by norm_num)
    have e : (48000 : ℚ) * 256 = ((12288000 : ℤ) : ℚ) := by norm_num
    rw [e]; simpa using this
  unfold Khz2NM512f64
  rw [h1, h2, h3]

/-- The binary64 value of `Khz2NM512f` at `F_CPU` = 48 MHz lies between the
exactly rounded quotient `m` and `m + 1`, and stays below `m + 1` unless the
exact quotient is within `2^-20` below the half `m + 1/2`. -/
theorem Khz2NM512f64_bounds {f : ℚ} (hf : 0 < f)
    (h32 : ⌊12288000 / f + 1 / 2⌋ ≤ 2 ^ 32 - 2) :
    ((⌊12288000 / f + 1 / 2⌋ : ℤ) : ℚ) ≤ Khz2NM512f64 F_CPU f ∧
    Khz2NM512f64 F_CPU f ≤ (⌊12288000 / f + 1 / 2⌋ : ℤ) + 1 ∧
    (12288000 / f ≤ (⌊12288000 / f + 1 / 2⌋ : ℤ) + 1 / 2 - 1 / 2 ^ 20 →
      Khz2NM512f64 F_CPU f < (⌊12288000 / f + 1 / 2⌋ : ℤ) + 1) ∧
    (12288000 / f ≤ (⌊12288000 / f + 1 / 2⌋ : ℤ) →
      Khz2NM512f64 F_CPU f < (⌊12288000 / f + 1 / 2⌋ : ℤ) + 1) := by
  rw [Khz2NM512f64_F_CPU]
  set x : ℚ := 12288000 / f with hx
  set m : ℤ := ⌊x + 1 / 2⌋ with hm
  have hxpos : 0 < x := by positivity
  have hm0 : 0 ≤ m := Int.floor_nonneg.mpr (by linarith)
  have hle : (m : ℚ) ≤ x + 1 / 2 := Int.floor_le _
  have hlt : x + 1 / 2 < (m : ℚ) + 1 := Int.lt_floor_add_one _
  -- binary64 values around the quotient
  have r1 : isBinary64 ((m : ℚ) - 1 / 2) := by
    have := isBinary64_dyadic (2 * m - 1) 1 (by rw [abs_le]; constructor <;> omega) (by norm_num)
    have e : (((2 * m - 1 : ℤ)) : ℚ) / 2 ^ 1 = (m : ℚ) - 1 / 2 := by push_cast; ring
    rwa [e] at this
  have r2 : isBinary64 ((m : ℚ) + 1 / 2) := by
    have := isBinary64_dyadic (2 * m + 1) 1 (by rw [abs_le]; constructor <;> omega) (by norm_num)
    have e : (((2 * m + 1 : ℤ)) : ℚ) / 2 ^ 1 = (m : ℚ) + 1 / 2 := by push_cast; ring
    rwa [e] at this
  have r3 : isBinary64 (m : ℚ) := isBinary64_int m (by rw [abs_le]; constructor <;> omega)
  have r4 : isBinary64 ((m : ℚ) + 1) := by
    have := isBinary64_int (m + 1) (by rw [abs_le]; constructor <;> omega)
    simpa using this
  have r5 : isBinary64 ((m : ℚ) + 1 / 2 - 1 / 2 ^ 20) := by
    have := isBinary64_dyadic ((2 * m + 1) * 2 ^ 19 - 1) 20
      (by rw [abs_le]; constructor <;> omega) (by norm_num)
    have e : ((((2 * m + 1) * 2 ^ 19 - 1 : ℤ)) : ℚ) / 2 ^ 20 = (m : ℚ) + 1 / 2 - 1 / 2 ^ 20 := by
      push_cast; ring
    rwa [e] at this
  have r6 : isBinary64 ((m : ℚ) + 1 - 1 / 2 ^ 20) := by
    have := isBinary64_dyadic ((m + 1) * 2 ^ 20 - 1) 20
      (by rw [abs_le]; constructor <;> omega) (by norm_num)
    have e : ((((m + 1) * 2 ^ 20 - 1 : ℤ)) : ℚ) / 2 ^ 20 = (m : ℚ) + 1 - 1 / 2 ^ 20 := by
      push_cast; ring
    rwa [e] at this
  have q1 : (m : ℚ) - 1 / 2 ≤ rnd x := le_rnd r1 (by linarith)
  have q2 : rnd x ≤ (m : ℚ) + 1 / 2 := rnd_le r2 (by linarith)
  refine ⟨le_rnd r3 (by linarith), rnd_le r4 (by linarith), ?_, ?_⟩
  · intro h
    have q3 : rnd x ≤ (m : ℚ) + 1 / 2 - 1 / 2 ^ 20 := rnd_le r5 h
    have : rnd (rnd x + 1 / 2) ≤ (m : ℚ) + 1 - 1 / 2 ^ 20 := rnd_le r6 (by linarith)
    have : (0 : ℚ) < 1 / 2 ^ 20 := by positivity
    linarith
  · intro h
    have q3 : rnd x ≤ (m : ℚ) := rnd_le r3 h
    have : rnd (rnd x + 1 / 2) ≤ (m : ℚ) + 1 / 2 := rnd_le r2 (by linarith)
    linarith

/-- The divider stored by the binary64 evaluation at 48 MHz: it exists
whenever the exactly rounded quotient `m` is at most `2^32 - 2`, it is `m` or
`m + 1`, and it is `m` unless the exact quotient is within `2^-20` below the
half `m + 1/2`. -/
theorem nm512_64_spec {f : ℚ} (hf : 0 < f)
    (h32 : ⌊12288000 / f + 1 / 2⌋ ≤ 2 ^ 32 - 2) :
    ∃ n : ℕ, nm512_64 F_CPU f = some n ∧
      ⌊12288000 / f + 1 / 2⌋ ≤ (n : ℤ) ∧ (n : ℤ) ≤ ⌊12288000 / f + 1 / 2⌋ + 1 ∧
      (12288000 / f ≤ (⌊12288000 / f + 1 / 2⌋ : ℤ) + 1 / 2 - 1 / 2 ^ 20 →
        (n : ℤ) = ⌊12288000 / f + 1 / 2⌋) ∧
      (12288000 / f ≤ (⌊12288000 / f + 1 / 2⌋ : ℤ) →
        (n : ℤ) = ⌊12288000 / f + 1 / 2⌋) := by
  obtain ⟨b1, b2, b3, b4⟩ := Khz2NM512f64_bounds hf h32
  set m : ℤ := ⌊12288000 / f + 1 / 2⌋ with hm
  set y : ℚ := Khz2NM512f64 F_CPU f with hy
  have hm0 : 0 ≤ m := by
    have : (0 : ℚ) < 12288000 / f := by positivity
    exact Int.floor_nonneg.mpr (by linarith)
  have hy0 : 0 ≤ y := by
    have : (0 : ℚ) ≤ (m : ℚ) := by exact_mod_cast hm0
    linarith
  have hfl1 : m ≤ ⌊y⌋ := Int.le_floor.mpr b1
  have hfl2 : ⌊y⌋ ≤ m + 1 := by
    have : ⌊y⌋ < m + 1 + 1 := by
      rw [Int.floor_lt]; push_cast; linarith
    omega
  have hfl3 : y < (m : ℚ) + 1 → ⌊y⌋ = m := by
    intro h
    have : ⌊y⌋ < m + 1 := by rw [Int.floor_lt]; push_cast; exact h
    omega
  have hc : cTrunc y = ⌊y⌋ := cTrunc_of_nonneg hy0
  have hn : ((⌊y⌋.toNat : ℕ) : ℤ) = ⌊y⌋ := Int.toNat_of_nonneg (by omega)
  refine ⟨⌊y⌋.toNat, ?_, ?_, ?_, ?_, ?_⟩
  · unfold nm512_64 toUint32
    rw [if_neg hf.ne', ← hy, hc, if_pos ⟨by omega, by omega⟩]
  · rw [hn]; exact hfl1
  · rw [hn]; exact hfl2
  · intro h; rw [hn]; exact hfl3 (b3 h)
  · intro h; rw [hn]; exact hfl3 (b4 h)

/-- Evaluation of the rounding at a point of known binade. -/
theorem rnd_eval {q : ℚ} (E k : ℤ) (hE : -1022 ≤ E) (h1 : (2 : ℚ) ^ E ≤ |q|)
    (h2 : |q| < 2 ^ (E + 1)) (hk : |q / 2 ^ (E - 52) - k| < 1 / 2) :
    rnd q = (k : ℚ) * 2 ^ (E - 52) := by
  rw [rnd_eq, ulpExp_eq hE h1 h2, roundHalfEven_eq_of_lt hk]

theorem tieFreq_isBinary64 : isBinary64 tieFreq :=
  isBinary64_dyadic 6433713753386423 37 (by norm_num) (by norm_num)

theorem rnd_quotient_tieFreq : rnd (12288000 / tieFreq) = 525 / 2 := by
  have h := rnd_eval (q := 12288000 / tieFreq) 8 (525 * 2 ^ 43) (by norm_num)
    (by rw [abs_of_pos (by norm_num [tieFreq])]; norm_num [tieFreq])
    (by rw [abs_of_pos (by norm_num [tieFreq])]; norm_num [tieFreq])
    (by
      rw [abs_lt]
      norm_num [tieFreq, zpow_neg])
  rw [h]
  norm_num [zpow_neg]

theorem Khz2NM512f64_tieFreq : Khz2NM512f64 F_CPU tieFreq = 263 := by
  rw [Khz2NM512f64_F_CPU, rnd_quotient_tieFreq]
  have e : (525 : ℚ) / 2 + 1 / 2 = ((263 : ℤ) : ℚ) := by norm_num
  rw [e, rnd_int 263 (by norm_num)]
  norm_num

theorem nm512_64_tieFreq : nm512_64 F_CPU tieFreq = some 263 := by
  have hne : tieFreq ≠ 0 := by norm_num [tieFreq]
  have hc : cTrunc (263 : ℚ) = 263 := by
    rw [cTrunc_of_nonneg (by norm_num), Int.floor_eq_iff]
    norm_num
  unfold nm512_64 toUint32
  rw [if_neg hne, Khz2NM512f64_tieFreq, hc]
  rfl

theorem floor_tieFreq : ⌊(12288000 : ℚ) / tieFreq + 1 / 2⌋ = 262 := by
  rw [Int.floor_eq_iff]
  norm_num [tieFreq]

/-! ## The configured sweep -/

theorem freq_audioBand (i : ℕ) : freq audioBand i = 1 + 19 * (i : ℚ) / 100 := by
  simp only [freq, audioBand, F0, F1, F_STEP]
  norm_num

theorem freq_audioBand_ge_one (i : ℕ) : (1 : ℚ) ≤ freq audioBand i := by
  rw [freq_audioBand]
  have : (0 : ℚ) ≤ 19 * (i : ℚ) / 100 := by positivity
  linarith

/-- Bounds of the rounded quotient for a target of at least 1 kHz and below
20 kHz at 48 MHz. -/
theorem divider_bounds_of_ge_one {f : ℚ} (h1 : 1 ≤ f) (h2 : f ≤ 20) :
    614400 ≤ cTrunc (Khz2NM512f F_CPU f) ∧ cTrunc (Khz2NM512f F_CPU f) ≤ 12288000 := by
  have hf : (0 : ℚ) < f := by linarith
  rw [cTrunc_Khz2NM512f F_CPU hf]
  have e : (F_CPU : ℚ) / 1000 * 256 = 12288000 := by norm_num [F_CPU]
  rw [e]
  have hx1 : (12288000 : ℚ) / f ≤ 12288000 := by
    rw [div_le_iff₀ hf]; nlinarith
  have hx2 : (614400 : ℚ) ≤ 12288000 / f := by
    rw [le_div_iff₀ hf]; nlinarith
  constructor
  · rw [Int.le_floor]; push_cast; linarith
  · have : ⌊(12288000 : ℚ) / f + 1 / 2⌋ < 12288000 + 1 := by
      rw [Int.floor_lt]; push_cast; linarith
    omega

/-- In the configured sweep every step index stores a divider: the target is
at least 1 kHz, so the rounded quotient is at most 12288000. -/
theorem audioBand_nm512 (i : ℕ) :
    nm512 F_CPU (freq audioBand i)
      = some (cTrunc (Khz2NM512f F_CPU (freq audioBand i))).toNat ∧
    cTrunc (Khz2NM512f F_CPU (freq audioBand i)) ≤ 12288000 := by
  have hge := freq_audioBand_ge_one i
  have hpos : (0 : ℚ) < freq audioBand i := by linarith
  have hub : cTrunc (Khz2NM512f F_CPU (freq audioBand i)) ≤ 12288000 := by
    rw [cTrunc_Khz2NM512f F_CPU hpos]
    have e : (F_CPU : ℚ) / 1000 * 256 = 12288000 := by norm_num [F_CPU]
    rw [e]
    have hx1 : (12288000 : ℚ) / freq audioBand i ≤ 12288000 := by
      rw [div_le_iff₀ hpos]; nlinarith
    have : ⌊(12288000 : ℚ) / freq audioBand i + 1 / 2⌋ < 12288000 + 1 := by
      rw [Int.floor_lt]; push_cast; linarith
    omega
  exact ⟨nm512_eq_some F_CPU hpos (by omega), hub⟩

/-- C2: in the configured sweep (`F_CPU = 48000000`, `F0 = 1`, `F1 = 20`,
`F_STEP = 100`) every step index `i < 100` stores a divider `nm512` and
forwards it to `refco_setnm`, with `0 < nm512 ≤ 2^24 - 1`: the integer part
`nm512 / 512` fits in 15 bits, the fractional part `nm512 % 512` in 9 bits,
and the conversion to `uint32_t` is in range. -/
theorem audioBand_divider_range (i : ℕ) (hi : i < F_STEP) :
    ∃ n : ℕ, nm512 audioBand.F_CPU (freq audioBand i) = some n ∧
      (loopBody audioBand i).bind dividerOf = some n ∧
      0 < n ∧ n ≤ 2 ^ 24 - 1 ∧ n / 512 < 2 ^ 15 ∧ n % 512 < 2 ^ 9 ∧ n < 2 ^ 32 := by
  have hge := freq_audioBand_ge_one i
  have hle : freq audioBand i ≤ 20 := by
    rw [freq_audioBand]
    have : (i : ℚ) ≤ 99 := by
      have : i ≤ 99 := by simp only [F_STEP] at hi; omega
      exact_mod_cast this
    linarith
  have hpos : (0 : ℚ) < freq audioBand i := by linarith
  obtain ⟨hb1, hb2⟩ := divider_bounds_of_ge_one hge hle
  have hF : audioBand.F_CPU = F_CPU := rfl
  have hsome := nm512_eq_some F_CPU hpos (by omega)
  refine ⟨(cTrunc (Khz2NM512f F_CPU (freq audioBand i))).toNat, ?_, ?_, ?_⟩
  · rw [hF]; exact hsome
  · simp only [loopBody, hF, hsome, Option.map_some', Option.some_bind, dividerOf]
  · omega

theorem audioBand_divider_range_witness :
    ∃ n : ℕ, nm512 audioBand.F_CPU (freq audioBand 99) = some n ∧
      (loopBody audioBand 99).bind dividerOf = some n ∧
      0 < n ∧ n ≤ 2 ^ 24 - 1 ∧ n / 512 < 2 ^ 15 ∧ n % 512 < 2 ^ 9 ∧ n < 2 ^ 32 :=
  audioBand_divider_range 99 (by decide)

/-- The body of the loop, once the divider is known. -/
theorem loopBody_of_nm512 {cfg : SweepConfig} {i nm : ℕ}
    (h : nm512 cfg.F_CPU (freq cfg i) = some nm) :
    loopBody cfg i =
      some [Action.refco_setnm nm, Action.pwm2_setdc i, Action.IO_FLP LED,
        Action.delay_ms LED_DLY] := by
  simp only [loopBody, h, Option.map_some']

/-- A trace of the body has the shape of the four calls. -/
theorem loopBody_eq_some {cfg : SweepConfig} {i : ℕ} {t : List Action}
    (h : loopBody cfg i = some t) :
    ∃ nm, nm512 cfg.F_CPU (freq cfg i) = some nm ∧
      t = [Action.refco_setnm nm, Action.pwm2_setdc i, Action.IO_FLP LED,
        Action.delay_ms LED_DLY] := by
  unfold loopBody at h
  cases hn : nm512 cfg.F_CPU (freq cfg i) with
  | none => rw [hn] at h; simp at h
  | some nm =>
    rw [hn] at h
    refine ⟨nm, rfl, ?_⟩
    simpa using h.symm

/-- One more iteration of a running loop: the body at the current index, then
the rest from the next index. -/
theorem sweepLoop_succ {cfg : SweepConfig} {i : ℕ} (hi : i < cfg.F_STEP) (n : ℕ) :
    sweepLoop cfg (n + 1) i =
      (loopBody cfg i).bind fun t =>
        (sweepLoop cfg n (nextIndex cfg.F_STEP i)).map fun rest => t ++ rest := by
  rw [sweepLoop, if_pos hi]

theorem nm512_at_one : nm512 F_CPU 1 = some 12288000 := by
  rw [nm512_some_iff F_CPU (by norm_num : (0 : ℚ) < 1)]
  refine ⟨?_, by norm_num⟩
  rw [cTrunc_Khz2NM512f F_CPU (by norm_num : (0 : ℚ) < 1), Int.floor_eq_iff]
  norm_num [F_CPU]

theorem nm512_at_half : nm512 F_CPU (1 / 2) = some 24576000 := by
  rw [nm512_some_iff F_CPU (by norm_num : (0 : ℚ) < 1 / 2)]
  refine ⟨?_, by norm_num⟩
  rw [cTrunc_Khz2NM512f F_CPU (by norm_num : (0 : ℚ) < 1 / 2), Int.floor_eq_iff]
  norm_num [F_CPU]

theorem freq_zero (cfg : SweepConfig) : freq cfg 0 = cfg.F0 := by
  simp [freq]

/-! ## The frequency-to-divider conversion -/

theorem F_CPU_scale : (F_CPU : ℚ) / 1000 * 256 = 12288000 := by
  norm_num [F_CPU]

/-- The value truncated by the conversion, for a value that is already a
non-negative integer plus a half or less. -/
theorem cTrunc_eq {y : ℚ} {k : ℤ} (h0 : 0 ≤ k) (h1 : (k : ℚ) ≤ y) (h2 : y < k + 1) :
    cTrunc y = k := by
  have hk : (0 : ℚ) ≤ (k : ℚ) := by exact_mod_cast h0
  rw [cTrunc_of_nonneg (by linarith), Int.floor_eq_iff]
  exact ⟨h1, h2⟩

theorem nm512_64_at_one_512th : nm512_64 F_CPU (1 / 512) = none := by
  have hq : rnd ((12288000 : ℚ) / (1 / 512)) = 6291456000 := by
    have e : (12288000 : ℚ) / (1 / 512) = ((6291456000 : ℤ) : ℚ) := by norm_num
    rw [e, rnd_int _ (by norm_num)]; norm_num
  have hy : rnd ((6291456000 : ℚ) + 1 / 2) = 12582912001 / 2 := by
    have := isBinary64_dyadic 12582912001 1 (by norm_num) (by norm_num)
    have e : ((12582912001 : ℤ) : ℚ) / 2 ^ 1 = (6291456000 : ℚ) + 1 / 2 := by norm_num
    rw [e] at this
    rw [this]; norm_num
  have hc : cTrunc ((12582912001 : ℚ) / 2) = 6291456000 :=
    cTrunc_eq (by norm_num) (by norm_num) (by norm_num)
  unfold nm512_64 toUint32
  rw [if_neg (by norm_num), Khz2NM512f64_F_CPU, hq, hy, hc]
  rfl

theorem nm512_at_one_512th : nm512 F_CPU (1 / 512) = none := by
  have hc : cTrunc (Khz2NM512f F_CPU (1 / 512)) = 6291456000 := by
    apply cTrunc_eq (by norm_num) <;> norm_num [Khz2NM512f, F_CPU]
  unfold nm512 toUint32
  rw [if_neg (by norm_num), hc]
  rfl

theorem nm512_64_at_4915200 : nm512_64 F_CPU 4915200 = some 3 := by
  have hq : rnd ((12288000 : ℚ) / 4915200) = 5 / 2 := by
    have := isBinary64_dyadic 5 1 (by norm_num) (by norm_num)
    have e : ((5 : ℤ) : ℚ) / 2 ^ 1 = (12288000 : ℚ) / 4915200 := by norm_num
    rw [e] at this
    rw [this]; norm_num
  have hy : rnd ((5 : ℚ) / 2 + 1 / 2) = 3 := by
    have e : (5 : ℚ) / 2 + 1 / 2 = ((3 : ℤ) : ℚ) := by norm_num
    rw [e, rnd_int _ (by norm_num)]; norm_num
  have hc : cTrunc (3 : ℚ) = 3 := cTrunc_eq (by norm_num) (by norm_num) (by norm_num)
  unfold nm512_64 toUint32
  rw [if_neg (by norm_num), Khz2NM512f64_F_CPU, hq, hy, hc]
  rfl

/-- Decoding a divider within `1/2 + 2^-20` of a quotient of at least 256
gives back the target up to `48000 / 2^9`. -/
theorem decode_bound {x : ℚ} {n : ℤ} (hx : 256 ≤ x) (hn : 256 ≤ n)
    (hd : |(n : ℚ) - x| ≤ 1 / 2 + 1 / 2 ^ 20) :
    |12288000 / (n : ℚ) - 12288000 / x| ≤ 48000 / 2 ^ 9 := by
  have hnq : (256 : ℚ) ≤ (n : ℚ) := by exact_mod_cast hn
  have hxpos : (0 : ℚ) < x := by linarith
  have hnpos : (0 : ℚ) < (n : ℚ) := by linarith
  have hkey : 131072 * |(n : ℚ) - x| ≤ (n : ℚ) * x := by
    rw [abs_le] at hd
    rcases eq_or_lt_of_le hn with h256 | h257
    · have e : (n : ℚ) = 256 := by rw [← h256]; norm_num
      rw [e] at hd ⊢
      rw [abs_sub_comm, abs_of_nonneg (by linarith)]
      norm_num at hd ⊢
      linarith
    · have h257' : (257 : ℚ) ≤ (n : ℚ) := by
        have : (257 : ℤ) ≤ n := by omega
        exact_mod_cast this
      have h1 : 257 * x ≤ (n : ℚ) * x := mul_le_mul_of_nonneg_right h257' hxpos.le
      have h2 : |(n : ℚ) - x| ≤ 1 / 2 + 1 / 2 ^ 20 := abs_le.mpr hd
      norm_num at hd h2 ⊢
      linarith
  have hdiff : 12288000 / (n : ℚ) - 12288000 / x
      = 12288000 * (x - (n : ℚ)) / ((n : ℚ) * x) := by
    field_simp
    ring
  rw [hdiff, abs_div, abs_mul, abs_of_pos (mul_pos hnpos hxpos),
    abs_of_pos (by norm_num : (0 : ℚ) < 12288000), div_le_iff₀ (mul_pos hnpos hxpos),
    abs_sub_comm]
  norm_num
  linarith

/-- C1, as stated, fails.  At `f = 1/512` kHz, inside `0 < f ≤ 48000`, the
rounded quotient is 6291456000, beyond 32 bits, and no divider is stored.  At
the binary64 value `f = 0x1.6db6db6db6db7p+15` the exactly rounded quotient
`floor (48000 * 256 / f + 1/2)` is 262 while the code stores 263. -/
theorem roundtrip_counterexample :
    (0 < (1 : ℚ) / 512 ∧ (1 : ℚ) / 512 ≤ (F_CPU : ℚ) / 1000 ∧ isBinary64 (1 / 512) ∧
      ⌊(F_CPU : ℚ) / 1000 * 256 / (1 / 512) + 1 / 2⌋ = 6291456000 ∧
      nm512_64 F_CPU (1 / 512) = none ∧ nm512 F_CPU (1 / 512) = none) ∧
    (0 < tieFreq ∧ tieFreq ≤ (F_CPU : ℚ) / 1000 ∧ isBinary64 tieFreq ∧
      ⌊(F_CPU : ℚ) / 1000 * 256 / tieFreq + 1 / 2⌋ = 262 ∧
      nm512_64 F_CPU tieFreq = some 263) := by
  refine ⟨⟨by norm_num, by norm_num [F_CPU], ?_, ?_, nm512_64_at_one_512th,
    nm512_at_one_512th⟩, ⟨by norm_num [tieFreq], by norm_num [tieFreq, F_CPU],
    tieFreq_isBinary64, ?_, nm512_64_tieFreq⟩⟩
  · have := isBinary64_dyadic 1 9 (by norm_num) (by norm_num)
    have e : ((1 : ℤ) : ℚ) / 2 ^ 9 = 1 / 512 := by norm_num
    rwa [e] at this
  · rw [Int.floor_eq_iff]; norm_num [F_CPU]
  · rw [F_CPU_scale]; exact floor_tieFreq

/-- C1, amended: with `C = F_CPU / 1000 = 48000` kHz, for every target
frequency `f` with `0 < f ≤ C` whose exactly rounded quotient
`m = floor (C * 256 / f + 1/2)` is at most `2^32 - 2`, the binary64 evaluation
of `Khz2NM512f` stores a divider `d`; `d` is `m` or `m + 1`, it is positive,
and the frequency `C * 256 / d` it encodes differs from `f` by at most
`C / 2^9`. -/
theorem Khz2NM512f64_roundtrip (f : ℚ) (h0 : 0 < f) (h1 : f ≤ (F_CPU : ℚ) / 1000)
    (h32 : ⌊(F_CPU : ℚ) / 1000 * 256 / f + 1 / 2⌋ ≤ 2 ^ 32 - 2) :
    (F_CPU : ℚ) / 1000 = 48000 ∧
    ∃ d : ℕ, nm512_64 F_CPU f = some d ∧ 0 < d ∧
      ⌊(F_CPU : ℚ) / 1000 * 256 / f + 1 / 2⌋ ≤ (d : ℤ) ∧
      (d : ℤ) ≤ ⌊(F_CPU : ℚ) / 1000 * 256 / f + 1 / 2⌋ + 1 ∧
      |NM5122Khz F_CPU d - f| ≤ 48000 / 2 ^ 9 := by
  have hC : (F_CPU : ℚ) / 1000 = 48000 := by norm_num [F_CPU]
  have hm256 := divider_ge_256 F_CPU h0 h1
  rw [F_CPU_scale] at h32 hm256 ⊢
  obtain ⟨n, hn, hlo, hhi, hnear, -⟩ := nm512_64_spec h0 h32
  set x : ℚ := 12288000 / f with hx
  set m : ℤ := ⌊x + 1 / 2⌋ with hm
  have hx256 : (256 : ℚ) ≤ x := by
    rw [hx, le_div_iff₀ h0]
    rw [hC] at h1
    linarith
  have hle : (m : ℚ) ≤ x + 1 / 2 := Int.floor_le _
  have hlt : x + 1 / 2 < (m : ℚ) + 1 := Int.lt_floor_add_one _
  have hdist : |((n : ℤ) : ℚ) - x| ≤ 1 / 2 + 1 / 2 ^ 20 := by
    rw [abs_le]
    have hcases : (n : ℤ) = m ∨ (n : ℤ) = m + 1 := by omega
    rcases hcases with hn0 | hn1
    · rw [hn0]
      constructor <;> norm_num <;> linarith
    · have hfar : ¬ x ≤ (m : ℚ) + 1 / 2 - 1 / 2 ^ 20 := by
        intro hc
        have := hnear hc
        omega
      have hgt := not_le.mp hfar
      rw [hn1]
      push_cast
      constructor <;> norm_num at hgt ⊢ <;> linarith
  refine ⟨hC, n, hn, ?_, hlo, hhi, ?_⟩
  · have : (0 : ℤ) < (n : ℤ) := by omega
    exact_mod_cast this
  · have hb := decode_bound hx256 (by omega : (256 : ℤ) ≤ (n : ℤ)) hdist
    have hf : (12288000 : ℚ) / x = f := by
      rw [hx, div_div_cancel₀ (by norm_num)]
    rw [hf] at hb
    have hN : NM5122Khz F_CPU (n : ℤ) = 12288000 / ((n : ℤ) : ℚ) := by
      rw [NM5122Khz, F_CPU_scale]
    rw [hN]
    exact hb

theorem Khz2NM512f64_roundtrip_witness :
    ∃ d : ℕ, nm512_64 F_CPU tieFreq = some d ∧ 0 < d ∧
      ⌊(F_CPU : ℚ) / 1000 * 256 / tieFreq + 1 / 2⌋ ≤ (d : ℤ) ∧
      (d : ℤ) ≤ ⌊(F_CPU : ℚ) / 1000 * 256 / tieFreq + 1 / 2⌋ + 1 ∧
      |NM5122Khz F_CPU d - tieFreq| ≤ 48000 / 2 ^ 9 :=
  (Khz2NM512f64_roundtrip tieFreq (by norm_num [tieFreq])
    (by norm_num [tieFreq, F_CPU])
    (by rw [F_CPU_scale, floor_tieFreq]; norm_num)).2

/-- C3, as stated, fails: at the binary64 value
`f = 0x1.6db6db6db6db7p+15` the quotient `x = 48000 * 256 / f` lies just below
262.5, so `floor (x + 1/2) = 262`, but the double quotient rounds to 262.5 and
the code stores 263, farther than one half from `x`. -/
theorem rounding_counterexample :
    0 < tieFreq ∧ isBinary64 tieFreq ∧
    nm512_64 F_CPU tieFreq = some 263 ∧
    ⌊(F_CPU : ℚ) / 1000 * 256 / tieFreq + 1 / 2⌋ = 262 ∧
    1 / 2 < |(263 : ℚ) - (F_CPU : ℚ) / 1000 * 256 / tieFreq| := by
  refine ⟨by norm_num [tieFreq], tieFreq_isBinary64, nm512_64_tieFreq, ?_, ?_⟩
  · rw [F_CPU_scale]; exact floor_tieFreq
  · rw [F_CPU_scale, lt_abs]
    left
    norm_num [tieFreq]

/-- C3, amended: for every target frequency `f > 0` whose exactly rounded
quotient `m = floor (x + 1/2)`, `x = (F_CPU/1000) * 256 / f`, is at most
`2^32 - 2`, the binary64 evaluation stores a divider `d` that is `m` or
`m + 1` and within `1/2 + 2^-20` of `x`.  Unless `x` lies less than `2^-20`
below the half `m + 1/2`, `d = m`: the integer nearest to `x`.  Whenever the
fractional part of `x` is at least one half, `d = floor x + 1` (an exact half
is rounded up, and `d` is not the truncation `floor x`), and `d` differs from
round-half-to-even at every half with an even floor; `f = 4915200`
(`x = 5/2`) is such a point: the divider is 3 where truncation and
round-half-to-even give 2. -/
theorem Khz2NM512f64_rounding (f : ℚ) (hf : 0 < f)
    (h32 : ⌊(F_CPU : ℚ) / 1000 * 256 / f + 1 / 2⌋ ≤ 2 ^ 32 - 2) :
    ∃ d : ℕ, nm512_64 F_CPU f = some d ∧
      ⌊(F_CPU : ℚ) / 1000 * 256 / f + 1 / 2⌋ ≤ (d : ℤ) ∧
      (d : ℤ) ≤ ⌊(F_CPU : ℚ) / 1000 * 256 / f + 1 / 2⌋ + 1 ∧
      |(d : ℚ) - (F_CPU : ℚ) / 1000 * 256 / f| ≤ 1 / 2 + 1 / 2 ^ 20 ∧
      ((F_CPU : ℚ) / 1000 * 256 / f
          ≤ (⌊(F_CPU : ℚ) / 1000 * 256 / f + 1 / 2⌋ : ℤ) + 1 / 2 - 1 / 2 ^ 20 →
        (d : ℤ) = ⌊(F_CPU : ℚ) / 1000 * 256 / f + 1 / 2⌋ ∧
        |(d : ℚ) - (F_CPU : ℚ) / 1000 * 256 / f| ≤ 1 / 2 ∧
        ∀ z : ℤ, |(d : ℚ) - (F_CPU : ℚ) / 1000 * 256 / f|
          ≤ |(z : ℚ) - (F_CPU : ℚ) / 1000 * 256 / f|) ∧
      (1 / 2 ≤ Int.fract ((F_CPU : ℚ) / 1000 * 256 / f) →
        (d : ℤ) = ⌊(F_CPU : ℚ) / 1000 * 256 / f⌋ + 1 ∧
        (d : ℤ) ≠ ⌊(F_CPU : ℚ) / 1000 * 256 / f⌋) ∧
      (Int.fract ((F_CPU : ℚ) / 1000 * 256 / f) = 1 / 2 →
        (d : ℚ) = (F_CPU : ℚ) / 1000 * 256 / f + 1 / 2) ∧
      (Int.fract ((F_CPU : ℚ) / 1000 * 256 / f) = 1 / 2 →
        ⌊(F_CPU : ℚ) / 1000 * 256 / f⌋ % 2 = 0 →
        (d : ℤ) ≠ roundHalfEven ((F_CPU : ℚ) / 1000 * 256 / f)) ∧
      (nm512_64 F_CPU 4915200 = some 3 ∧
        ⌊(F_CPU : ℚ) / 1000 * 256 / 4915200⌋ = 2 ∧
        roundHalfEven ((F_CPU : ℚ) / 1000 * 256 / 4915200) = 2) := by
  rw [F_CPU_scale] at h32 ⊢
  obtain ⟨n, hn, hlo, hhi, hnear, hint⟩ := nm512_64_spec hf h32
  set x : ℚ := 12288000 / f with hx
  set m : ℤ := ⌊x + 1 / 2⌋ with hm
  have hle : (m : ℚ) ≤ x + 1 / 2 := Int.floor_le _
  have hlt : x + 1 / 2 < (m : ℚ) + 1 := Int.lt_floor_add_one _
  have hcast : ((n : ℕ) : ℚ) = (((n : ℕ) : ℤ) : ℚ) := by push_cast; rfl
  have hmdist : |(m : ℚ) - x| ≤ 1 / 2 := by
    rw [abs_le]; constructor <;> linarith
  have hfrac_ge : 1 / 2 ≤ Int.fract x → (n : ℤ) = ⌊x⌋ + 1 := by
    intro hfr
    have h1 : m = ⌊x⌋ + 1 := floor_add_half_of_fract_ge hfr
    have h2 : x ≤ (m : ℚ) := by
      rw [h1]; push_cast
      exact (Int.lt_floor_add_one x).le
    rw [hint h2, h1]
  refine ⟨n, hn, hlo, hhi, ?_, ?_, ?_, ?_, ?_, ?_⟩
  · rw [hcast, abs_le]
    have hcases : (n : ℤ) = m ∨ (n : ℤ) = m + 1 := by omega
    rcases hcases with hn0 | hn1
    · rw [hn0]
      constructor <;> norm_num <;> linarith
    · have hfar : ¬ x ≤ (m : ℚ) + 1 / 2 - 1 / 2 ^ 20 := by
        intro hc
        have := hnear hc
        omega
      have hgt := not_le.mp hfar
      rw [hn1]
      push_cast
      constructor <;> norm_num at hgt ⊢ <;> linarith
  · intro hc
    have hnm := hnear hc
    refine ⟨hnm, ?_, ?_⟩
    · rw [hcast, hnm]; exact hmdist
    · intro z
      rw [hcast, hnm]
      rcases lt_trichotomy z m with hz | hz | hz
      · have h1 : (z : ℚ) + 1 ≤ (m : ℚ) := by exact_mod_cast hz
        have h2 : (1 : ℚ) / 2 ≤ |(z : ℚ) - x| := by
          rw [abs_sub_comm, le_abs]; left; linarith
        exact hmdist.trans h2
      · rw [hz]
      · have h1 : (m : ℚ) + 1 ≤ (z : ℚ) := by exact_mod_cast hz
        have h2 : (1 : ℚ) / 2 ≤ |(z : ℚ) - x| := by
          rw [le_abs]; left; linarith
        exact hmdist.trans h2
  · intro hfr
    have := hfrac_ge hfr
    exact ⟨this, by omega⟩
  · intro hfr
    rw [hcast, hfrac_ge hfr.ge]
    have h2 : x = ⌊x⌋ + Int.fract x := (Int.floor_add_fract x).symm
    push_cast
    linarith
  · intro hfr hev
    rw [hfrac_ge hfr.ge]
    have h1 : ¬ Int.fract x < 1 / 2 := by rw [hfr]; exact lt_irrefl _
    have h2 : ¬ (1 : ℚ) / 2 < Int.fract x := by rw [hfr]; exact lt_irrefl _
    simp only [roundHalfEven, if_neg h1, if_neg h2, if_pos hev]
    omega
  · have e : (12288000 : ℚ) / 4915200 = 5 / 2 := by norm_num
    have hfl : ⌊(5 : ℚ) / 2⌋ = 2 := by
      rw [Int.floor_eq_iff]; norm_num
    have hfr : Int.fract ((5 : ℚ) / 2) = 1 / 2 := by
      rw [Int.fract, hfl]; norm_num
    refine ⟨nm512_64_at_4915200, ?_, ?_⟩
    · rw [e, hfl]
    · rw [e]
      simp only [roundHalfEven, hfr, hfl, lt_irrefl, if_false]
      rfl

theorem Khz2NM512f64_rounding_witness :
    ∃ d : ℕ, nm512_64 F_CPU tieFreq = some d ∧
      ⌊(F_CPU : ℚ) / 1000 * 256 / tieFreq + 1 / 2⌋ ≤ (d : ℤ) ∧
      (d : ℤ) ≤ ⌊(F_CPU : ℚ) / 1000 * 256 / tieFreq + 1 / 2⌋ + 1 ∧
      |(d : ℚ) - (F_CPU : ℚ) / 1000 * 256 / tieFreq| ≤ 1 / 2 + 1 / 2 ^ 20 := by
  obtain ⟨d, h1, h2, h3, h4, -⟩ := Khz2NM512f64_rounding tieFreq (by norm_num [tieFreq])
    (by rw [F_CPU_scale, floor_tieFreq]; norm_num)
  exact ⟨d, h1, h2, h3, h4⟩

/-! ## Divider overflow -/

theorem freq64_zero (cfg : SweepConfig) : freq64 cfg 0 = rnd cfg.F0 := by
  unfold freq64
  rw [Nat.cast_zero, mul_zero, rnd_zero, zero_div, rnd_zero, add_zero, rnd_rnd]

theorem rnd_half : rnd (1 / 2) = 1 / 2 := by
  have := isBinary64_dyadic 1 1 (by norm_num) (by norm_num)
  have e : ((1 : ℤ) : ℚ) / 2 ^ 1 = 1 / 2 := by norm_num
  rwa [e] at this

theorem nm512_64_at_half : nm512_64 F_CPU (1 / 2) = some 24576000 := by
  have hq : rnd ((12288000 : ℚ) / (1 / 2)) = 24576000 := by
    have e : (12288000 : ℚ) / (1 / 2) = ((24576000 : ℤ) : ℚ) := by norm_num
    rw [e, rnd_int _ (by norm_num)]; norm_num
  have hy : rnd ((24576000 : ℚ) + 1 / 2) = 49152001 / 2 := by
    have := isBinary64_dyadic 49152001 1 (by norm_num) (by norm_num)
    have e : ((49152001 : ℤ) : ℚ) / 2 ^ 1 = (24576000 : ℚ) + 1 / 2 := by norm_num
    rw [e] at this
    rw [this]; norm_num
  have hc : cTrunc ((49152001 : ℚ) / 2) = 24576000 :=
    cTrunc_eq (by norm_num) (by norm_num) (by norm_num)
  unfold nm512_64 toUint32
  rw [if_neg (by norm_num), Khz2NM512f64_F_CPU, hq, hy, hc]
  rfl

/-- The body of the loop in binary64, once the divider is known. -/
theorem loopBody64_of_nm512 {cfg : SweepConfig} {i nm : ℕ}
    (h : nm512_64 cfg.F_CPU (freq64 cfg i) = some nm) :
    loopBody64 cfg i =
      some [Action.refco_setnm nm, Action.pwm2_setdc i, Action.IO_FLP LED,
        Action.delay_ms LED_DLY] := by
  simp only [loopBody64, h, Option.map_some']

theorem sweepLoop64_succ {cfg : SweepConfig} {i : ℕ} (hi : i < cfg.F_STEP) (n : ℕ) :
    sweepLoop64 cfg (n + 1) i =
      (loopBody64 cfg i).bind fun t =>
        (sweepLoop64 cfg n (nextIndex cfg.F_STEP i)).map fun rest => t ++ rest := by
  rw [sweepLoop64, if_pos hi]

theorem freq64_halfKhzBand_zero : freq64 halfKhzBand 0 = 1 / 2 := by
  rw [freq64_zero]
  exact rnd_half

/-- C4, as stated, fails: with `F0 = 0.5` kHz the target of step 0 is 0.5 kHz,
its rounded divider 24576000 exceeds `2^24 - 1 = 16777215`, and the loop body
passes 24576000 itself to `refco_setnm`, not the maximum, in exact arithmetic
and in binary64 alike. -/
theorem no_saturation_counterexample :
    0 < freq halfKhzBand 0 ∧
    (NM512_MAX : ℤ) < cTrunc (Khz2NM512f halfKhzBand.F_CPU (freq halfKhzBand 0)) ∧
    loopBody halfKhzBand 0 =
      some [Action.refco_setnm 24576000, Action.pwm2_setdc 0, Action.IO_FLP LED,
        Action.delay_ms LED_DLY] ∧
    (loopBody halfKhzBand 0).bind dividerOf ≠ some NM512_MAX ∧
    freq64 halfKhzBand 0 = 1 / 2 ∧
    loopBody64 halfKhzBand 0 =
      some [Action.refco_setnm 24576000, Action.pwm2_setdc 0, Action.IO_FLP LED,
        Action.delay_ms LED_DLY] ∧
    (loopBody64 halfKhzBand 0).bind dividerOf ≠ some NM512_MAX := by
  have hf : freq halfKhzBand 0 = 1 / 2 := by rw [freq_zero]; rfl
  have hF : halfKhzBand.F_CPU = F_CPU := rfl
  have hn : nm512 halfKhzBand.F_CPU (freq halfKhzBand 0) = some 24576000 := by
    rw [hf, hF]; exact nm512_at_half
  have hc := ((nm512_some_iff F_CPU (by norm_num : (0 : ℚ) < 1 / 2) 24576000).mp
    nm512_at_half).1
  have hn64 : nm512_64 halfKhzBand.F_CPU (freq64 halfKhzBand 0) = some 24576000 := by
    rw [freq64_halfKhzBand_zero, hF]; exact nm512_64_at_half
  refine ⟨by rw [hf]; norm_num, ?_, loopBody_of_nm512 hn, ?_, freq64_halfKhzBand_zero,
    loopBody64_of_nm512 hn64, ?_⟩
  · rw [hf, hF, hc]; norm_num [NM512_MAX]
  · rw [loopBody_of_nm512 hn]
    simp [dividerOf, NM512_MAX]
  · rw [loopBody64_of_nm512 hn64]
    simp [dividerOf, NM512_MAX]

/-- C4, amended: at 48 MHz, for every step `i < F_STEP` of a sweep (endpoints
below `2^900` in magnitude and `F_STEP ≤ 2^31`, so that no `double` operation
overflows) whose target `f` (the binary64 `freq`) is positive and whose
rounded divider `m = floor ((F_CPU/1000) * 256 / f + 1/2)` exceeds `2^24 - 1`
and is at most `2^32 - 2`, the loop body passes the computed divider,
unclamped, to `refco_setnm`: the value passed is `m` or `m + 1` and so exceeds
`2^24 - 1`, and the sweep goes on with the next step. -/
theorem overflow_forwards_unclamped (cfg : SweepConfig) (i : ℕ)
    (hF : cfg.F_CPU = F_CPU) (hi : i < cfg.F_STEP) (_hmax : cfg.F_STEP ≤ 2 ^ 31)
    (_hF0 : |cfg.F0| ≤ 2 ^ 900) (_hF1 : |cfg.F1| ≤ 2 ^ 900)
    (hf : 0 < freq64 cfg i)
    (hov : (NM512_MAX : ℤ) < ⌊(F_CPU : ℚ) / 1000 * 256 / freq64 cfg i + 1 / 2⌋)
    (h32 : ⌊(F_CPU : ℚ) / 1000 * 256 / freq64 cfg i + 1 / 2⌋ ≤ 2 ^ 32 - 2) :
    ∃ d : ℕ,
      loopBody64 cfg i =
        some [Action.refco_setnm d, Action.pwm2_setdc i, Action.IO_FLP LED,
          Action.delay_ms LED_DLY] ∧
      (loopBody64 cfg i).bind dividerOf = some d ∧
      NM512_MAX < d ∧
      ⌊(F_CPU : ℚ) / 1000 * 256 / freq64 cfg i + 1 / 2⌋ ≤ (d : ℤ) ∧
      (d : ℤ) ≤ ⌊(F_CPU : ℚ) / 1000 * 256 / freq64 cfg i + 1 / 2⌋ + 1 ∧
      ∀ n, sweepLoop64 cfg (n + 1) i =
        (sweepLoop64 cfg n (nextIndex cfg.F_STEP i)).map fun rest =>
          [Action.refco_setnm d, Action.pwm2_setdc i, Action.IO_FLP LED,
            Action.delay_ms LED_DLY] ++ rest := by
  rw [F_CPU_scale] at hov h32 ⊢
  obtain ⟨n, hn, hlo, hhi, -, -⟩ := nm512_64_spec hf h32
  rw [← hF] at hn
  have hb := loopBody64_of_nm512 hn
  refine ⟨n, hb, ?_, ?_, hlo, hhi, ?_⟩
  · rw [hb]; simp [dividerOf]
  · have : (NM512_MAX : ℤ) < (n : ℤ) := lt_of_lt_of_le hov hlo
    exact_mod_cast this
  · intro k
    rw [sweepLoop64_succ hi, hb, Option.some_bind]

theorem overflow_forwards_unclamped_witness :
    ∃ d : ℕ,
      loopBody64 halfKhzBand 0 =
        some [Action.refco_setnm d, Action.pwm2_setdc 0, Action.IO_FLP LED,
          Action.delay_ms LED_DLY] ∧
      NM512_MAX < d := by
  have hfl : ⌊(F_CPU : ℚ) / 1000 * 256 / freq64 halfKhzBand 0 + 1 / 2⌋ = 24576000 := by
    rw [freq64_halfKhzBand_zero, Int.floor_eq_iff]
    norm_num [F_CPU]
  have hpow : (1 : ℚ) ≤ 2 ^ 900 := one_le_pow₀ (by norm_num)
  obtain ⟨d, h1, -, h3, -⟩ := overflow_forwards_unclamped halfKhzBand 0 rfl
    (by decide) (by norm_num [halfKhzBand, F_STEP])
    (by
      have : |halfKhzBand.F0| ≤ 1 := by norm_num [halfKhzBand, abs_le]
      exact this.trans hpow)
    (by
      have : |halfKhzBand.F1| ≤ 2 ^ 5 := by norm_num [halfKhzBand, F1, abs_le]
      exact this.trans (pow_le_pow_right₀ (by norm_num) (by norm_num)))
    (by rw [freq64_halfKhzBand_zero]; norm_num)
    (by rw [hfl]; norm_num [NM512_MAX])
    (by rw [hfl]; norm_num)
  exact ⟨d, h1, h3⟩

/-! ## The per-step target frequency -/

theorem nextIndex_lt {fstep : ℕ} (h : 0 < fstep) (i : ℕ) : nextIndex fstep i < fstep := by
  unfold nextIndex
  split_ifs with hc
  · exact hc
  · exact h

theorem indexAt_succ (fstep k : ℕ) :
    indexAt fstep (k + 1) = nextIndex fstep (indexAt fstep k) :=
  Function.iterate_succ_apply' _ _ _

theorem indexAt_eq_mod {fstep : ℕ} (h : 0 < fstep) (k : ℕ) :
    indexAt fstep k = k % fstep := by
  induction k with
  | zero => simp [indexAt]
  | succ k ih =>
    rw [indexAt_succ, ih, nextIndex]
    have hk : k % fstep < fstep := Nat.mod_lt k h
    have hdiv : fstep * (k / fstep) + k % fstep = k := Nat.div_add_mod k fstep
    split_ifs with hc
    · have e : k + 1 = fstep * (k / fstep) + (k % fstep + 1) := by omega
      rw [e, Nat.mul_add_mod, Nat.mod_eq_of_lt hc]
    · have hfs : k % fstep + 1 = fstep := by omega
      have e : k + 1 = fstep * (k / fstep) + fstep := by omega
      rw [e, Nat.mul_add_mod, Nat.mod_self]

/-- The trace of `n + 1` iterations is the trace of `n` iterations followed by
the body at the index reached after `n` steps. -/
theorem sweepLoop_snoc (cfg : SweepConfig) (n : ℕ) :
    ∀ i, i < cfg.F_STEP →
      sweepLoop cfg (n + 1) i =
        (sweepLoop cfg n i).bind fun t =>
          (loopBody cfg ((nextIndex cfg.F_STEP)^[n] i)).map fun b => t ++ b := by
  induction n with
  | zero =>
    intro i hi
    rw [sweepLoop_succ hi, Function.iterate_zero, id]
    cases loopBody cfg i <;> simp [sweepLoop]
  | succ n ih =>
    intro i hi
    have hpos : 0 < cfg.F_STEP := Nat.lt_of_le_of_lt (Nat.zero_le _) hi
    rw [sweepLoop_succ hi (n + 1), ih _ (nextIndex_lt hpos i), sweepLoop_succ hi n,
      Function.iterate_succ_apply]
    cases loopBody cfg i with
    | none => simp
    | some b =>
      cases sweepLoop cfg n (nextIndex cfg.F_STEP i) with
      | none => simp
      | some r =>
        cases loopBody cfg ((nextIndex cfg.F_STEP)^[n] (nextIndex cfg.F_STEP i)) <;> simp

/-- In the configured sweep the loop body produces its four calls at every
step index. -/
theorem loopBody_audioBand (i : ℕ) :
    loopBody audioBand i =
      some [Action.refco_setnm (cTrunc (Khz2NM512f F_CPU (freq audioBand i))).toNat,
        Action.pwm2_setdc i, Action.IO_FLP LED, Action.delay_ms LED_DLY] :=
  loopBody_of_nm512 (audioBand_nm512 i).1

/-- In the configured sweep the loop produces a trace for every number of
iterations: four calls per iteration. -/
theorem sweepLoop_audioBand_total (n : ℕ) :
    ∃ t, sweepLoop audioBand n 0 = some t ∧ t.length = 4 * n := by
  induction n with
  | zero => exact ⟨[], rfl, rfl⟩
  | succ n ih =>
    obtain ⟨t, ht, hl⟩ := ih
    refine ⟨t ++ [Action.refco_setnm (cTrunc (Khz2NM512f F_CPU
      (freq audioBand ((nextIndex audioBand.F_STEP)^[n] 0)))).toNat,
        Action.pwm2_setdc ((nextIndex audioBand.F_STEP)^[n] 0), Action.IO_FLP LED,
        Action.delay_ms LED_DLY], ?_, ?_⟩
    · rw [sweepLoop_snoc audioBand n 0 (by decide), ht, Option.some_bind,
        loopBody_audioBand, Option.map_some']
    · rw [List.length_append, hl]
      simp only [List.length_cons, List.length_nil]
      omega

/-- The configured program runs: `main` produces a trace for every number of
loop iterations. -/
theorem main_audioBand_total (n : ℕ) :
    ∃ t, main audioBand n = some t ∧ t.length = 7 + 4 * n := by
  obtain ⟨r, hr, hl⟩ := sweepLoop_audioBand_total n
  have hs : nm512 audioBand.F_CPU audioBand.F0 = some 12288000 := nm512_at_one
  refine ⟨[Action.mcu_init, Action.refco_init RefcoSource.REFCO_SYSCLK,
     Action.refco_setnm 12288000, Action.refco_en,
     Action.pwm2_init TimerPrescaler.TMRPS_8x audioBand.F_STEP,
     Action.IO_OUT LED, Action.ei] ++ r, ?_, ?_⟩
  · simp only [main, startup, hs, hr, Option.map_some', Option.some_bind]
  · rw [List.length_append, hl]
    rfl

/-- C7: in the configured sweep (`F_CPU = 48000000`, `F0 = 1`, `F1 = 20`,
`F_STEP = 100`) step 0 passes the divider 12288000 to `refco_setnm` (as does
the start-up code), the target frequency of step 50 is 10.5 kHz, and step 50
passes 50 to `pwm2_setdc`; iteration 0 and iteration 50 of the loop run at the
step indices 0 and 50. -/
theorem audioBand_scenario :
    (loopBody audioBand 0).bind dividerOf = some 12288000 ∧
    (startup audioBand).bind dividerOf = some 12288000 ∧
    (12288000 : ℤ) = ⌊(48000000 : ℚ) / 1000 * 256 / 1 + 1 / 2⌋ ∧
    freq audioBand 50 = 1 + 19 * 50 / 100 ∧
    freq audioBand 50 = 21 / 2 ∧
    (loopBody audioBand 50).bind rampOf = some 50 ∧
    indexAt audioBand.F_STEP 0 = 0 ∧ indexAt audioBand.F_STEP 50 = 50 := by
  have h0 : nm512 audioBand.F_CPU (freq audioBand 0) = some 12288000 := by
    rw [freq_zero]; exact nm512_at_one
  have hs : nm512 audioBand.F_CPU audioBand.F0 = some 12288000 := nm512_at_one
  have h50 : freq audioBand 50 = 21 / 2 := by
    rw [freq_audioBand]; norm_num
  refine ⟨?_, ?_, ?_, ?_, h50, ?_, rfl, ?_⟩
  · rw [loopBody_of_nm512 h0]; rfl
  · simp only [startup, hs, Option.map_some', Option.some_bind, dividerOf]
  · symm; rw [Int.floor_eq_iff]; norm_num
  · rw [h50]; norm_num
  · rw [loopBody_audioBand]; rfl
  · rw [indexAt_eq_mod (by decide : 0 < audioBand.F_STEP)]; rfl

/-- C8: for `F_STEP > 0` the step index starts at 0, moves from `i` to `i + 1`
while `i + 1 < F_STEP` and otherwise back to 0; it stays below `F_STEP`, is
`k mod F_STEP` at iteration `k`, is 0 again after `F_STEP` iterations and not
before, and the frequency, the divider and the whole body at iteration
`k + F_STEP` are those of iteration `k`.  The trace of `k + 1` iterations of
the loop is the trace of `k` iterations followed by the body at that index. -/
theorem sweep_cyclic (cfg : SweepConfig) (h : 0 < cfg.F_STEP) (k : ℕ) :
    indexAt cfg.F_STEP 0 = 0 ∧
    indexAt cfg.F_STEP (k + 1) =
      (if indexAt cfg.F_STEP k + 1 < cfg.F_STEP then indexAt cfg.F_STEP k + 1 else 0) ∧
    indexAt cfg.F_STEP k < cfg.F_STEP ∧
    indexAt cfg.F_STEP k = k % cfg.F_STEP ∧
    indexAt cfg.F_STEP cfg.F_STEP = 0 ∧
    (∀ j, 0 < j → j < cfg.F_STEP → indexAt cfg.F_STEP j ≠ 0) ∧
    indexAt cfg.F_STEP (k + cfg.F_STEP) = indexAt cfg.F_STEP k ∧
    freq cfg (indexAt cfg.F_STEP (k + cfg.F_STEP)) = freq cfg (indexAt cfg.F_STEP k) ∧
    nm512 cfg.F_CPU (freq cfg (indexAt cfg.F_STEP (k + cfg.F_STEP)))
      = nm512 cfg.F_CPU (freq cfg (indexAt cfg.F_STEP k)) ∧
    loopBody cfg (indexAt cfg.F_STEP (k + cfg.F_STEP))
      = loopBody cfg (indexAt cfg.F_STEP k) ∧
    sweepLoop cfg (k + 1) 0 =
      (sweepLoop cfg k 0).bind fun t =>
        (loopBody cfg (indexAt cfg.F_STEP k)).map fun b => t ++ b := by
  have hper : indexAt cfg.F_STEP (k + cfg.F_STEP) = indexAt cfg.F_STEP k := by
    rw [indexAt_eq_mod h, indexAt_eq_mod h, Nat.add_mod_right]
  refine ⟨rfl, ?_, ?_, indexAt_eq_mod h k, ?_, ?_, hper, ?_, ?_, ?_, ?_⟩
  · rw [indexAt_succ, nextIndex]
  · rw [indexAt_eq_mod h]; exact Nat.mod_lt k h
  · rw [indexAt_eq_mod h, Nat.mod_self]
  · intro j hj0 hj
    rw [indexAt_eq_mod h, Nat.mod_eq_of_lt hj]
    omega
  · rw [hper]
  · rw [hper]
  · rw [hper]
  · exact sweepLoop_snoc cfg k 0 h

theorem sweep_cyclic_witness :
    loopBody audioBand (indexAt audioBand.F_STEP (7 + audioBand.F_STEP))
      = loopBody audioBand (indexAt audioBand.F_STEP 7) :=
  (sweep_cyclic audioBand (by decide) 7).2.2.2.2.2.2.2.2.2.1

/-! ## Ramp and ordering -/

/-- With equal endpoints the target frequency is the same at every step. -/
theorem freq_of_eq_endpoints {cfg : SweepConfig} (h : cfg.F0 = cfg.F1) (i : ℕ) :
    freq cfg i = cfg.F0 := by
  simp [freq, h]

/-- C9: for `F_STEP > 0`, the body at step index `i` passes to `pwm2_setdc`
that same `i` from which it computed the frequency and the divider it passes
to `refco_setnm`; the index of every iteration is below `F_STEP`, the period
given to `pwm2_init`; the ramp value is the same whatever the endpoints; and
with `F0 = F1` (and a start-up divider `nm` in range) the frequency is `F0`
and the divider `nm` at every step while the iterations `0, 1, ...,
F_STEP - 1` pass `0, 1, ..., F_STEP - 1` to `pwm2_setdc`. -/
theorem ramp_lockstep (cfg : SweepConfig) (h : 0 < cfg.F_STEP) (k : ℕ) :
    (∀ i t, loopBody cfg i = some t →
      rampOf t = some i ∧ dividerOf t = nm512 cfg.F_CPU (freq cfg i)) ∧
    indexAt cfg.F_STEP k < cfg.F_STEP ∧
    (∀ t, startup cfg = some t →
      Action.pwm2_init TimerPrescaler.TMRPS_8x cfg.F_STEP ∈ t) ∧
    (∀ (lo hi : ℚ) (i : ℕ) (t : List Action),
      loopBody { F_CPU := cfg.F_CPU, F0 := lo, F1 := hi, F_STEP := cfg.F_STEP } i = some t →
      rampOf t = some i) ∧
    (cfg.F0 = cfg.F1 → ∀ nm, nm512 cfg.F_CPU cfg.F0 = some nm →
      (∀ i, freq cfg i = cfg.F0) ∧
      (∀ i, nm512 cfg.F_CPU (freq cfg i) = some nm) ∧
      (∀ j, loopBody cfg (indexAt cfg.F_STEP j) =
        some [Action.refco_setnm nm, Action.pwm2_setdc (j % cfg.F_STEP),
          Action.IO_FLP LED, Action.delay_ms LED_DLY]) ∧
      (∀ j, j < cfg.F_STEP → loopBody cfg (indexAt cfg.F_STEP j) =
        some [Action.refco_setnm nm, Action.pwm2_setdc j,
          Action.IO_FLP LED, Action.delay_ms LED_DLY])) := by
  refine ⟨?_, ?_, ?_, ?_, ?_⟩
  · intro i t ht
    obtain ⟨nm, hnm, rfl⟩ := loopBody_eq_some ht
    exact ⟨rfl, by rw [hnm]; rfl⟩
  · rw [indexAt_eq_mod h]; exact Nat.mod_lt k h
  · intro t ht
    unfold startup at ht
    cases hn : nm512 cfg.F_CPU cfg.F0 with
    | none => rw [hn] at ht; simp at ht
    | some nm =>
      rw [hn] at ht
      have : t = [Action.mcu_init, Action.refco_init RefcoSource.REFCO_SYSCLK,
          Action.refco_setnm nm, Action.refco_en,
          Action.pwm2_init TimerPrescaler.TMRPS_8x cfg.F_STEP,
          Action.IO_OUT LED, Action.ei] := by simpa using ht.symm
      rw [this]
      simp
  · intro lo hi i t ht
    obtain ⟨nm, -, rfl⟩ := loopBody_eq_some ht
    rfl
  · intro he nm hnm
    have hfreq : ∀ i, freq cfg i = cfg.F0 := freq_of_eq_endpoints he
    have hdiv : ∀ i, nm512 cfg.F_CPU (freq cfg i) = some nm := by
      intro i; rw [hfreq i]; exact hnm
    refine ⟨hfreq, hdiv, ?_, ?_⟩
    · intro j
      rw [loopBody_of_nm512 (hdiv _), indexAt_eq_mod h]
    · intro j hj
      rw [loopBody_of_nm512 (hdiv _), indexAt_eq_mod h, Nat.mod_eq_of_lt hj]

theorem ramp_lockstep_witness :
    loopBody fixedBand (indexAt fixedBand.F_STEP 42) =
      some [Action.refco_setnm 12288000, Action.pwm2_setdc 42,
        Action.IO_FLP LED, Action.delay_ms LED_DLY] :=
  (ramp_lockstep fixedBand (by decide) 0).2.2.2.2 rfl 12288000 nm512_at_one
    |>.2.2.2 42 (by decide)

/-- C10: at every step index `i` the loop body of the configured sweep emits
a trace, and every trace the loop body emits at `i` (for any configuration)
contains exactly one `refco_setnm`, one `pwm2_setdc` and one `delay_ms`, with
the `refco_setnm` before the `pwm2_setdc` and the `pwm2_setdc` before the
`delay_ms`. -/
theorem loopBody_ordering (i : ℕ) :
    (∃ t, loopBody audioBand i = some t) ∧
    ∀ (cfg : SweepConfig) (t : List Action), loopBody cfg i = some t →
      t.countP isSetnm = 1 ∧ t.countP isSetdc = 1 ∧ t.countP isDelay = 1 ∧
      t.findIdx isSetnm < t.findIdx isSetdc ∧
      t.findIdx isSetdc < t.findIdx isDelay ∧
      t.findIdx isDelay < t.length ∧
      ∃ nm, t = [Action.refco_setnm nm, Action.pwm2_setdc i, Action.IO_FLP LED,
        Action.delay_ms LED_DLY] := by
  refine ⟨⟨_, loopBody_audioBand i⟩, ?_⟩
  intro cfg t h
  obtain ⟨nm, -, rfl⟩ := loopBody_eq_some h
  refine ⟨rfl, rfl, rfl, ?_, ?_, ?_, ⟨nm, rfl⟩⟩
  · simp [List.findIdx_cons, isSetnm, isSetdc]
  · simp [List.findIdx_cons, isSetdc, isDelay]
  · simp [List.findIdx_cons, isDelay]

theorem loopBody_ordering_witness :
    List.findIdx isSetnm [Action.refco_setnm 12288000, Action.pwm2_setdc 0,
        Action.IO_FLP LED, Action.delay_ms LED_DLY]
      < List.findIdx isSetdc [Action.refco_setnm 12288000, Action.pwm2_setdc 0,
        Action.IO_FLP LED, Action.delay_ms LED_DLY] :=
  ((loopBody_ordering 0).2 audioBand _
    (loopBody_of_nm512 (by rw [freq_zero]; exact nm512_at_one))).2.2.2.1

end RFSweeper
